import Mathlib

/-!
# Dictionary benchmark: word reading and mask-batch construction

A shallow embedding of `DictionaryBenchmark` from
`benchmark/flavors-benchmark/src/dictionary.cpp`:
`readWords`, `prepareConfig`, `wordsToMasks`, `loadDictionary`, `loadBook`.

Conventions of the embedding.

* A `char` is the code of its byte, a natural number `0 .. 255`; a
  `std::string` is the list of its characters.
* `unsigned` is 32 bits wide: a value stored into an `unsigned` is reduced
  modulo `2 ^ 32`.
* `int` is 32 bits wide: where the source casts a container size to `int` or
  computes a flat index in `int`, the embedding returns `none` when the value
  is not representable.
* Reading a `std::string` past its terminator is undefined; the embedding
  returns there whatever byte the storage behind the string holds, which is
  an explicit parameter (`beyond`).
* The standard error stream is a flag returned next to the result.
-/

namespace FlavorsBenchmarks

/-! ## Characters and strings -/

/-- Code of one `char` (the value of its byte). -/
abbrev CChar := Nat

/-- Contents of a `std::string`, terminator excluded. -/
abbrev CString := List CChar

/-- C `isspace` in the classic locale: space, `\t`, `\n`, `\v`, `\f`, `\r`. -/
def isspace (c : CChar) : Bool := c == 32 || (9 ≤ c && c ≤ 13)

/-- C `tolower` in the classic locale: `A .. Z` go to `a .. z`, every other
character is unchanged. -/
def tolower (c : CChar) : CChar := if 65 ≤ c ∧ c ≤ 90 then c + 32 else c

/-- C `ispunct` in the classic locale: the printable characters that are
neither alphanumeric nor the space. -/
def ispunct (c : CChar) : Bool :=
  (33 ≤ c && c ≤ 47) || (58 ≤ c && c ≤ 64) || (91 ≤ c && c ≤ 96) || (123 ≤ c && c ≤ 126)

/-- Implicit conversion `char → unsigned` of the assignment
`rawWords[..] = currentWord[letterIndex]`, plain `char` being signed: the
codes `0 .. 127` keep their value, the codes from `128` are sign-extended. -/
def charToUnsigned (c : CChar) : Nat := if c < 128 then c else c + (2 ^ 32 - 256)

/-- Indexing `std::string::operator[]`: the character at `pos` below the size,
the terminator `0` at `pos = size`, and past that the byte `beyond pos` the
storage happens to hold. -/
def stringAt (beyond : Nat → CChar) (s : CString) (pos : Nat) : CChar :=
  if h : pos < s.length then s.get ⟨pos, h⟩
  else if pos = s.length then 0
  else beyond pos

/-! ## Reading a word list -/

/-- Token extraction `file >> word` repeated until it fails: `pending` is the
token being read; whitespace ends it, leading whitespace is skipped, and the
end of the file ends the last token. -/
def extractTokens : CString → CString → List CString
  | pending, [] => if pending.isEmpty then [] else [pending]
  | pending, c :: rest =>
    if isspace c then
      if pending.isEmpty then extractTokens [] rest
      else pending :: extractTokens [] rest
    else extractTokens (pending ++ [c]) rest

/-- Algorithm `std::remove_copy_if` with a `back_inserter`: appends to `result`
the characters of the source for which the predicate is false. -/
def removeCopyIf (pred : CChar → Bool) : CString → CString → CString
  | [], result => result
  | c :: rest, result =>
    if pred c then removeCopyIf pred rest result
    else removeCopyIf pred rest (result ++ [c])

/-- Body of the `while(file >> word)` loop of `readWords`, run over the tokens
the stream yields; the state is `(words, maxWordLen)`. -/
def readLoop : List CString → List CString × Nat → List CString × Nat
  | [], st => st
  | token :: rest, (words, maxWordLen) =>
    let word := token.map tolower
    let result := removeCopyIf ispunct word []
    let words := words ++ [result]
    let maxWordLen := if result.length > maxWordLen then result.length % 2 ^ 32 else maxWordLen
    readLoop rest (words, maxWordLen)

/-- Function `DictionaryBenchmark::readWords`. The argument is the content of
the file at `path`, `none` when the stream is not `good()` after `open`. The
result is the word list and the value left in `maxWordLen`. -/
def readWords (file : Option CString) : List CString × Nat :=
  match file with
  | none => ([], 0)
  | some content => readLoop (extractTokens [] content) ([], 0)

/-! ## Configuration and mask batch -/

/-- Modelled from the spec: the class `Flavors::Configuration`, whose
declaration is not part of the sources; an ordered sequence of bit widths, one
per level. -/
structure Configuration where
  /-- Bit width of each level. -/
  Levels : List Nat
  deriving DecidableEq, Repr

/-- Modelled from the spec: `Depth` is the number of levels. -/
def Configuration.Depth (config : Configuration) : Nat := config.Levels.length

/-- Modelled from the spec: the class `Flavors::Masks`, whose declaration is
not part of the sources; `Store` is the flat buffer of `Depth * Count` masks
and `Lengths` the `Count` recorded bit lengths. -/
structure Masks where
  /-- Configuration the batch is built with. -/
  Config : Configuration
  /-- Number of words. -/
  Count : Nat
  /-- Flat mask buffer. -/
  Store : List Nat
  /-- Recorded bit length of each word. -/
  Lengths : List Nat
  deriving DecidableEq, Repr

/-- Modelled from the spec: `Masks::Depth()`, the depth of the configuration of
the batch. -/
def Masks.Depth (masks : Masks) : Nat := masks.Config.Depth

/-- Modelled from the spec: the class `DictionaryBenchmark`, whose declaration
(`dictionary.h`) is not part of the sources, reduced to the members that the
embedded functions read or write: `BitsPerLetter`, the caller-supplied bits
per letter, and `maxWordLen`, the longest dictionary word length. -/
structure DictionaryBenchmark where
  /-- Member `BitsPerLetter`. -/
  BitsPerLetter : Nat
  /-- Member `maxWordLen`. -/
  maxWordLen : Nat
  deriving DecidableEq, Repr

/-- Function `DictionaryBenchmark::prepareConfig`: `maxWordLen` levels, each
`bitsPerLetter` wide. -/
def prepareConfig (bitsPerLetter maxWordLen : Nat) : Configuration :=
  { Levels := List.replicate maxWordLen bitsPerLetter }

/-- Inner loop of `wordsToMasks`, `for letterIndex in 0 .. Depth`: writes
`currentWord[letterIndex]` at `letterIndex * Count + wordIndex`. -/
def writeLetters (beyond : Nat → CChar) (count depth wordIndex : Nat)
    (currentWord : CString) (rawWords : List Nat) : List Nat :=
  (List.range depth).foldl
    (fun raw letterIndex =>
      raw.set (letterIndex * count + wordIndex)
        (charToUnsigned (stringAt beyond currentWord letterIndex)))
    rawWords

/-- Outer loop of `wordsToMasks`, `for wordIndex in 0 .. Count`, on the state
`(rawWords, rawLengths)`. -/
def fillLoop (bitsPerLetter : Nat) (beyond : Nat → Nat → CChar) (words : List CString)
    (count depth : Nat) (init : List Nat × List Nat) : List Nat × List Nat :=
  (List.range count).foldl
    (fun st wordIndex =>
      let currentWord := words.getD wordIndex []
      let rawLengths := st.2.set wordIndex ((currentWord.length * bitsPerLetter) % 2 ^ 32)
      (writeLetters (beyond wordIndex) count depth wordIndex currentWord st.1, rawLengths))
    init

/-- Function `DictionaryBenchmark::wordsToMasks`. `beyond wordIndex pos` is the
byte found at `pos` in the storage of the copy of word `wordIndex`, for `pos`
past its terminator. The result is `none` when the word count or the buffer
size does not fit an `int`. -/
def wordsToMasks (bm : DictionaryBenchmark) (beyond : Nat → Nat → CChar)
    (words : List CString) (config : Configuration) : Option Masks :=
  if words.length < 2 ^ 31 ∧ words.length * config.Depth < 2 ^ 31 then
    let count := words.length
    let depth := config.Depth
    let raw := fillLoop bm.BitsPerLetter beyond words count depth
      (List.replicate (count * depth) 0, List.replicate count 0)
    some { Config := config, Count := count, Store := raw.1, Lengths := raw.2 }
  else none

/-- Function `DictionaryBenchmark::loadDictionary`: reads the dictionary file,
stores the longest word length in the member `maxWordLen`, derives the
configuration and builds the batch. The result is the updated object and the
batch. -/
def loadDictionary (bm : DictionaryBenchmark) (beyond : Nat → Nat → CChar)
    (dictionaryFile : Option CString) : DictionaryBenchmark × Option Masks :=
  let read := readWords dictionaryFile
  let words := read.1
  let bm1 : DictionaryBenchmark := { BitsPerLetter := bm.BitsPerLetter, maxWordLen := read.2 }
  let config := prepareConfig bm1.BitsPerLetter bm1.maxWordLen
  (bm1, wordsToMasks bm1 beyond words config)

/-- Function `DictionaryBenchmark::loadBook`: reads the book file, writes the
warning to the error stream when `maxBookWordLen > maxWordLen`, and builds the
batch with the configuration passed in. The result is the warning flag and the
batch. -/
def loadBook (bm : DictionaryBenchmark) (beyond : Nat → Nat → CChar)
    (bookFile : Option CString) (config : Configuration) : Bool × Option Masks :=
  let read := readWords bookFile
  let bookWords := read.1
  let maxBookWordLen := read.2
  let warning := decide (maxBookWordLen > bm.maxWordLen)
  (warning, wordsToMasks bm beyond bookWords config)

/-- Flat index of the mask of word `wordIndex` at level `level` in a batch of
`count` words, as written by `wordsToMasks`. -/
def storeIndex (count level wordIndex : Nat) : Nat := level * count + wordIndex


/-! ## Arithmetic of the flat index -/

theorem storeIndex_lt {count depth level wordIndex : Nat} (hl : level < depth)
    (hw : wordIndex < count) : level * count + wordIndex < count * depth := by
  have h1 : (level + 1) * count ≤ depth * count := Nat.mul_le_mul_right count hl
  have h2 : (level + 1) * count = level * count + count := by ring
  have h3 : depth * count = count * depth := Nat.mul_comm _ _
  omega

theorem storeIndex_inj {count l1 w1 l2 w2 : Nat} (h1 : w1 < count) (h2 : w2 < count)
    (h : l1 * count + w1 = l2 * count + w2) : l1 = l2 ∧ w1 = w2 := by
  have hm1 : (l1 * count + w1) % count = w1 := by
    rw [Nat.add_comm, Nat.add_mul_mod_self_right, Nat.mod_eq_of_lt h1]
  have hm2 : (l2 * count + w2) % count = w2 := by
    rw [Nat.add_comm, Nat.add_mul_mod_self_right, Nat.mod_eq_of_lt h2]
  have hw : w1 = w2 := by rw [← hm1, ← hm2, h]
  subst hw
  have hmul : l1 * count = l2 * count := by omega
  have hpos : 0 < count := by omega
  exact ⟨Nat.eq_of_mul_eq_mul_right hpos hmul, rfl⟩

/-! ## Loops that write a buffer cell by cell -/

theorem foldl_set_length (g v : Nat → Nat) (n : Nat) (buf : List Nat) :
    ((List.range n).foldl (fun raw i => raw.set (g i) (v i)) buf).length = buf.length := by
  induction n with
  | zero => simp
  | succ n ih => simp [List.range_succ, List.foldl_append, ih]

theorem foldl_set_untouched (g v : Nat → Nat) (n : Nat) (buf : List Nat) (k : Nat)
    (hk : ∀ i, i < n → g i ≠ k) :
    ((List.range n).foldl (fun raw i => raw.set (g i) (v i)) buf)[k]? = buf[k]? := by
  induction n with
  | zero => simp
  | succ n ih =>
    have hn : g n ≠ k := hk n (Nat.lt_succ_self n)
    have ih1 := ih (fun i hi => hk i (Nat.lt_succ_of_lt hi))
    simp only [List.range_succ, List.foldl_append, List.foldl_cons, List.foldl_nil]
    rw [List.getElem?_set_ne hn, ih1]

theorem foldl_set_written (g v : Nat → Nat) (n : Nat) (buf : List Nat) (j : Nat)
    (hinj : ∀ i, i < n → ∀ i2, i2 < n → g i = g i2 → i = i2)
    (hj : j < n) (hlen : g j < buf.length) :
    ((List.range n).foldl (fun raw i => raw.set (g i) (v i)) buf)[g j]? = some (v j) := by
  induction n with
  | zero => omega
  | succ n ih =>
    simp only [List.range_succ, List.foldl_append, List.foldl_cons, List.foldl_nil]
    by_cases hjn : j = n
    · subst hjn
      rw [List.getElem?_set_self]
      rw [foldl_set_length]
      exact hlen
    · have hjlt : j < n := by omega
      have hne : g n ≠ g j := by
        intro he
        have := hinj n (Nat.lt_succ_self n) j hj he
        omega
      rw [List.getElem?_set_ne hne]
      exact ih (fun i hi i2 hi2 he => hinj i (Nat.lt_succ_of_lt hi) i2 (Nat.lt_succ_of_lt hi2) he) hjlt

theorem foldl_pair {α β γ : Type} (f : α → γ → α) (h : β → γ → β) (xs : List γ) (a : α) (b : β) :
    xs.foldl (fun st x => (f st.1 x, h st.2 x)) (a, b) = (xs.foldl f a, xs.foldl h b) := by
  induction xs generalizing a b with
  | nil => rfl
  | cons x xs ih => simp [List.foldl_cons, ih]

/-! ## The two loops of `wordsToMasks` -/

theorem writeLetters_length (beyond : Nat → CChar) (count depth wordIndex : Nat)
    (currentWord : CString) (rawWords : List Nat) :
    (writeLetters beyond count depth wordIndex currentWord rawWords).length = rawWords.length :=
  foldl_set_length (fun l => l * count + wordIndex)
    (fun l => charToUnsigned (stringAt beyond currentWord l)) depth rawWords

theorem writeLetters_other (beyond : Nat → CChar) (count depth wordIndex : Nat)
    (currentWord : CString) (rawWords : List Nat) (level w : Nat)
    (hw : w < count) (hwi : wordIndex < count) (hne : w ≠ wordIndex) :
    (writeLetters beyond count depth wordIndex currentWord rawWords)[level * count + w]?
      = rawWords[level * count + w]? := by
  apply foldl_set_untouched (fun l => l * count + wordIndex)
    (fun l => charToUnsigned (stringAt beyond currentWord l)) depth rawWords
  intro i _ he
  exact hne (storeIndex_inj hwi hw he).2.symm

theorem writeLetters_own (beyond : Nat → CChar) (count depth wordIndex : Nat)
    (currentWord : CString) (rawWords : List Nat) (level : Nat)
    (hlen : rawWords.length = count * depth) (hl : level < depth) (hwi : wordIndex < count) :
    (writeLetters beyond count depth wordIndex currentWord rawWords)[level * count + wordIndex]?
      = some (charToUnsigned (stringAt beyond currentWord level)) := by
  apply foldl_set_written (fun l => l * count + wordIndex)
    (fun l => charToUnsigned (stringAt beyond currentWord l)) depth rawWords level
  · intro i _ i2 _ he
    exact (storeIndex_inj hwi hwi he).1
  · exact hl
  · show level * count + wordIndex < rawWords.length
    rw [hlen]
    exact storeIndex_lt hl hwi

theorem fillLoop_store (bitsPerLetter : Nat) (beyond : Nat → Nat → CChar) (words : List CString)
    (count depth : Nat) (init : List Nat × List Nat) :
    (fillLoop bitsPerLetter beyond words count depth init).1
      = (List.range count).foldl
          (fun raw w => writeLetters (beyond w) count depth w (words.getD w []) raw) init.1 := by
  have h := foldl_pair
    (fun raw w => writeLetters (beyond w) count depth w (words.getD w []) raw)
    (fun (rl : List Nat) w => rl.set w (((words.getD w []).length * bitsPerLetter) % 2 ^ 32))
    (List.range count) init.1 init.2
  exact congrArg Prod.fst h

theorem fillLoop_lengths (bitsPerLetter : Nat) (beyond : Nat → Nat → CChar)
    (words : List CString) (count depth : Nat) (init : List Nat × List Nat) :
    (fillLoop bitsPerLetter beyond words count depth init).2
      = (List.range count).foldl
          (fun rl w => rl.set w (((words.getD w []).length * bitsPerLetter) % 2 ^ 32)) init.2 := by
  have h := foldl_pair
    (fun raw w => writeLetters (beyond w) count depth w (words.getD w []) raw)
    (fun (rl : List Nat) w => rl.set w (((words.getD w []).length * bitsPerLetter) % 2 ^ 32))
    (List.range count) init.1 init.2
  exact congrArg Prod.snd h

theorem store_after (beyond : Nat → Nat → CChar) (words : List CString) (count depth : Nat)
    (buf : List Nat) (hbuf : buf.length = count * depth) (n : Nat) (hn : n ≤ count) :
    ((List.range n).foldl
        (fun raw w => writeLetters (beyond w) count depth w (words.getD w []) raw) buf).length
      = count * depth ∧
    ∀ w, w < n → ∀ level, level < depth →
      ((List.range n).foldl
        (fun raw w => writeLetters (beyond w) count depth w (words.getD w []) raw) buf)[level * count + w]?
        = some (charToUnsigned (stringAt (beyond w) (words.getD w []) level)) := by
  induction n with
  | zero => exact ⟨by simpa using hbuf, fun w hw => by omega⟩
  | succ n ih =>
    obtain ⟨ihlen, ihcell⟩ := ih (Nat.le_of_succ_le hn)
    simp only [List.range_succ, List.foldl_append, List.foldl_cons, List.foldl_nil]
    refine ⟨by rw [writeLetters_length]; exact ihlen, ?_⟩
    intro w hw level hl
    by_cases hwn : w = n
    · subst hwn
      exact writeLetters_own _ _ _ _ _ _ _ ihlen hl (by omega)
    · rw [writeLetters_other _ _ _ _ _ _ _ _ (by omega) (by omega) hwn]
      exact ihcell w (by omega) level hl

theorem lengths_after (bitsPerLetter : Nat) (words : List CString) (count : Nat)
    (buf : List Nat) (hbuf : buf.length = count) :
    ((List.range count).foldl
        (fun rl w => rl.set w (((words.getD w []).length * bitsPerLetter) % 2 ^ 32)) buf).length
      = count ∧
    ∀ w, w < count →
      ((List.range count).foldl
        (fun rl w => rl.set w (((words.getD w []).length * bitsPerLetter) % 2 ^ 32)) buf)[w]?
        = some (((words.getD w []).length * bitsPerLetter) % 2 ^ 32) := by
  refine ⟨?_, ?_⟩
  · rw [foldl_set_length (fun w => w)
      (fun w => ((words.getD w []).length * bitsPerLetter) % 2 ^ 32) count buf]
    exact hbuf
  · intro w hw
    exact foldl_set_written (fun w => w)
      (fun w => ((words.getD w []).length * bitsPerLetter) % 2 ^ 32) count buf w
      (fun i _ i2 _ he => he) hw (by rw [hbuf]; exact hw)

/-- Result of `wordsToMasks` when the sizes fit an `int`: the batch exists, and
every cell of `Store` and `Lengths` holds what the two loops wrote there. -/
theorem wordsToMasks_cells (bm : DictionaryBenchmark) (beyond : Nat → Nat → CChar)
    (words : List CString) (config : Configuration)
    (hfit : words.length < 2 ^ 31 ∧ words.length * config.Depth < 2 ^ 31) :
    ∃ m, wordsToMasks bm beyond words config = some m ∧
      m.Config = config ∧ m.Count = words.length ∧
      m.Store.length = words.length * config.Depth ∧
      m.Lengths.length = words.length ∧
      (∀ w, w < words.length → ∀ level, level < config.Depth →
        m.Store[level * words.length + w]?
          = some (charToUnsigned (stringAt (beyond w) (words.getD w []) level))) ∧
      (∀ w, w < words.length →
        m.Lengths[w]? = some (((words.getD w []).length * bm.BitsPerLetter) % 2 ^ 32)) := by
  have hs := store_after beyond words words.length config.Depth
    (List.replicate (words.length * config.Depth) 0) (by simp) words.length (Nat.le_refl _)
  have hl := lengths_after bm.BitsPerLetter words words.length
    (List.replicate words.length 0) (by simp)
  refine ⟨_, by rw [wordsToMasks, if_pos hfit], rfl, rfl, ?_, ?_, ?_, ?_⟩
  · show (fillLoop _ _ _ _ _ _).1.length = _
    rw [fillLoop_store]
    exact hs.1
  · show (fillLoop _ _ _ _ _ _).2.length = _
    rw [fillLoop_lengths]
    exact hl.1
  · intro w hw level hlev
    show (fillLoop _ _ _ _ _ _).1[_]? = _
    rw [fillLoop_store]
    exact hs.2 w hw level hlev
  · intro w hw
    show (fillLoop _ _ _ _ _ _).2[_]? = _
    rw [fillLoop_lengths]
    exact hl.2 w hw

theorem stringAt_of_lt (beyond : Nat → CChar) (s : CString) (pos : Nat) (h : pos < s.length) :
    stringAt beyond s pos = s.get ⟨pos, h⟩ := by
  simp [stringAt, h]

theorem stringAt_terminator (beyond : Nat → CChar) (s : CString) :
    stringAt beyond s s.length = 0 := by
  simp [stringAt]

theorem stringAt_past (beyond : Nat → CChar) (s : CString) (pos : Nat) (h : s.length < pos) :
    stringAt beyond s pos = beyond pos := by
  have h1 : ¬ pos < s.length := by omega
  have h2 : ¬ pos = s.length := by omega
  simp [stringAt, h1, h2]

theorem charToUnsigned_injective {a b : Nat} (h : charToUnsigned a = charToUnsigned b) :
    a = b := by
  have hk : (2 : Nat) ^ 32 - 256 = 4294967040 := by norm_num
  have ha : charToUnsigned a = if a < 128 then a else a + 4294967040 := by
    rw [charToUnsigned, hk]
  have hb : charToUnsigned b = if b < 128 then b else b + 4294967040 := by
    rw [charToUnsigned, hk]
  rw [ha, hb] at h
  split at h <;> split at h <;> omega

theorem charToUnsigned_zero : charToUnsigned 0 = 0 := by decide

/-! ## The reading loop -/

theorem removeCopyIf_eq (pred : CChar → Bool) (source result : CString) :
    removeCopyIf pred source result = result ++ source.filter (fun c => !pred c) := by
  induction source generalizing result with
  | nil => simp [removeCopyIf]
  | cons c rest ih =>
    by_cases hc : pred c = true
    · simp [removeCopyIf, hc, ih]
    · simp [removeCopyIf, hc, ih]

theorem readLoop_words (tokens : List CString) (words : List CString) (maxWordLen : Nat) :
    (readLoop tokens (words, maxWordLen)).1
      = words ++ tokens.map (fun token => removeCopyIf ispunct (token.map tolower) []) := by
  induction tokens generalizing words maxWordLen with
  | nil => simp [readLoop]
  | cons token rest ih => simp [readLoop, ih]

theorem readLoop_maxWordLen (tokens : List CString) (words : List CString) (maxWordLen : Nat)
    (hlen : ∀ token, token ∈ tokens →
      (removeCopyIf ispunct (token.map tolower) []).length < 2 ^ 32) :
    maxWordLen ≤ (readLoop tokens (words, maxWordLen)).2 ∧
    (∀ token, token ∈ tokens →
      (removeCopyIf ispunct (token.map tolower) []).length
        ≤ (readLoop tokens (words, maxWordLen)).2) ∧
    ((readLoop tokens (words, maxWordLen)).2 = maxWordLen ∨
      ∃ token, token ∈ tokens ∧
        (removeCopyIf ispunct (token.map tolower) []).length
          = (readLoop tokens (words, maxWordLen)).2) := by
  induction tokens generalizing words maxWordLen with
  | nil => simp [readLoop]
  | cons token rest ih =>
    have hmod : (removeCopyIf ispunct (token.map tolower) []).length % 2 ^ 32
        = (removeCopyIf ispunct (token.map tolower) []).length :=
      Nat.mod_eq_of_lt (hlen token (List.mem_cons_self _ _))
    have hrest : ∀ t, t ∈ rest → (removeCopyIf ispunct (t.map tolower) []).length < 2 ^ 32 :=
      fun t ht => hlen t (List.mem_cons_of_mem _ ht)
    by_cases hgt : (removeCopyIf ispunct (token.map tolower) []).length > maxWordLen
    · obtain ⟨h1, h2, h3⟩ := ih (words ++ [removeCopyIf ispunct (token.map tolower) []])
        (removeCopyIf ispunct (token.map tolower) []).length hrest
      have hstep : readLoop (token :: rest) (words, maxWordLen)
          = readLoop rest (words ++ [removeCopyIf ispunct (token.map tolower) []],
              (removeCopyIf ispunct (token.map tolower) []).length) := by
        simp only [readLoop, if_pos hgt, hmod]
      rw [hstep]
      refine ⟨by omega, ?_, ?_⟩
      · intro t ht
        rcases List.mem_cons.mp ht with rfl | ht
        · exact h1
        · exact h2 t ht
      · rcases h3 with h3 | ⟨t, ht, h3⟩
        · exact Or.inr ⟨token, List.mem_cons_self _ _, h3.symm⟩
        · exact Or.inr ⟨t, List.mem_cons_of_mem _ ht, h3⟩
    · obtain ⟨h1, h2, h3⟩ := ih (words ++ [removeCopyIf ispunct (token.map tolower) []])
        maxWordLen hrest
      have hstep : readLoop (token :: rest) (words, maxWordLen)
          = readLoop rest (words ++ [removeCopyIf ispunct (token.map tolower) []],
              maxWordLen) := by
        simp only [readLoop, if_neg hgt]
      rw [hstep]
      refine ⟨h1, ?_, ?_⟩
      · intro t ht
        rcases List.mem_cons.mp ht with rfl | ht
        · omega
        · exact h2 t ht
      · rcases h3 with h3 | ⟨t, ht, h3⟩
        · exact Or.inl h3
        · exact Or.inr ⟨t, List.mem_cons_of_mem _ ht, h3⟩

/-- Value `readWords` leaves in `maxWordLen`: the greatest length among the words
it returns, and zero when it returns none, as long as every word is shorter
than `2 ^ 32` characters. -/
theorem readWords_maxWordLen (file : Option CString)
    (hlen : ∀ w, w ∈ (readWords file).1 → w.length < 2 ^ 32) :
    (∀ w, w ∈ (readWords file).1 → w.length ≤ (readWords file).2) ∧
    ((readWords file).1 ≠ [] → ∃ w, w ∈ (readWords file).1 ∧ w.length = (readWords file).2) ∧
    ((readWords file).1 = [] → (readWords file).2 = 0) := by
  cases file with
  | none => simp [readWords]
  | some content =>
    have hw : (readWords (some content)).1
        = (extractTokens [] content).map
            (fun token => removeCopyIf ispunct (token.map tolower) []) := by
      simp [readWords, readLoop_words]
    have htok : ∀ token, token ∈ extractTokens [] content →
        (removeCopyIf ispunct (token.map tolower) []).length < 2 ^ 32 := by
      intro token ht
      apply hlen
      rw [hw]
      exact List.mem_map_of_mem _ ht
    obtain ⟨_, h2, h3⟩ := readLoop_maxWordLen (extractTokens [] content) [] 0 htok
    have hr : (readWords (some content)).2 = (readLoop (extractTokens [] content) ([], 0)).2 := rfl
    have hle : ∀ w, w ∈ (readWords (some content)).1 →
        w.length ≤ (readWords (some content)).2 := by
      intro w hwm
      rw [hw] at hwm
      obtain ⟨t, ht, rfl⟩ := List.mem_map.mp hwm
      rw [hr]
      exact h2 t ht
    refine ⟨hle, ?_, ?_⟩
    · intro hne
      rcases h3 with h3 | ⟨t, ht, h3⟩
      · obtain ⟨w, hwm⟩ := List.exists_mem_of_ne_nil _ hne
        refine ⟨w, hwm, ?_⟩
        have := hle w hwm
        rw [hr, h3] at this
        rw [hr, h3]
        omega
      · refine ⟨_, ?_, h3⟩
        rw [hw]
        exact List.mem_map_of_mem _ ht
    · intro hnil
      rw [hw] at hnil
      have htn : extractTokens [] content = [] := List.map_eq_nil_iff.mp hnil
      rw [hr, htn]
      rfl

/-! ## Helper facts on the functions -/

theorem wordsToMasks_fits (bm : DictionaryBenchmark) (beyond : Nat → Nat → CChar)
    (words : List CString) (config : Configuration) (m : Masks)
    (h : wordsToMasks bm beyond words config = some m) :
    words.length < 2 ^ 31 ∧ words.length * config.Depth < 2 ^ 31 := by
  by_contra hn
  rw [wordsToMasks, if_neg hn] at h
  exact Option.noConfusion h

theorem prepareConfig_depth (bitsPerLetter maxWordLen : Nat) :
    (prepareConfig bitsPerLetter maxWordLen).Depth = maxWordLen := by
  simp [prepareConfig, Configuration.Depth]

theorem prepareConfig_levels (bitsPerLetter maxWordLen : Nat) :
    ∀ level, level ∈ (prepareConfig bitsPerLetter maxWordLen).Levels → level = bitsPerLetter := by
  intro level h
  exact (List.mem_replicate.mp h).2

theorem getD_of_getElem? (words : List CString) (i : Nat) (u : CString)
    (h : words[i]? = some u) : words.getD i [] = u := by
  simp [h]

/-- Warning of `loadBook`: given exactly when some book word has more characters
than the member `maxWordLen`; the batch is built in every case. -/
theorem loadBook_warning (bm : DictionaryBenchmark) (beyond : Nat → Nat → CChar)
    (file : Option CString) (config : Configuration)
    (hlen : ∀ w, w ∈ (readWords file).1 → w.length < 2 ^ 32)
    (hfit : (readWords file).1.length < 2 ^ 31 ∧
      (readWords file).1.length * config.Depth < 2 ^ 31) :
    ((loadBook bm beyond file config).1 = true ↔
      ∃ w, w ∈ (readWords file).1 ∧ bm.maxWordLen < w.length) ∧
    (∃ m, (loadBook bm beyond file config).2 = some m ∧ m.Config = config ∧
      m.Count = (readWords file).1.length ∧ m.Lengths.length = (readWords file).1.length) ∧
    (config.Depth = bm.maxWordLen →
      (∃ w, w ∈ (readWords file).1 ∧ config.Depth < w.length) →
      (loadBook bm beyond file config).1 = true) := by
  obtain ⟨hle, hatt, hzero⟩ := readWords_maxWordLen file hlen
  obtain ⟨m, hm, hcfg, hcount, _, hlens, _⟩ :=
    wordsToMasks_cells bm beyond (readWords file).1 config hfit
  have hflag : (loadBook bm beyond file config).1 = true ↔
      bm.maxWordLen < (readWords file).2 := by
    simp [loadBook]
  have hiff : (loadBook bm beyond file config).1 = true ↔
      ∃ w, w ∈ (readWords file).1 ∧ bm.maxWordLen < w.length := by
    rw [hflag]
    constructor
    · intro hgt
      have hne : (readWords file).1 ≠ [] := by
        intro hnil
        have := hzero hnil
        omega
      obtain ⟨w, hw, hwl⟩ := hatt hne
      exact ⟨w, hw, by omega⟩
    · rintro ⟨w, hw, hwl⟩
      have := hle w hw
      omega
  refine ⟨hiff, ⟨m, hm, hcfg, hcount, hlens⟩, ?_⟩
  intro hd hlong
  rw [hd] at hlong
  exact hiff.mpr hlong

/-! ## Properties of the specification -/

/-- C1 (evaluation at the failing input). The dictionary file `a abc` gives
the words `a` and `abc` and depth 3. For the word `a` the level-2 cell, flat
index `2 * 2 + 0 = 4`, is read from position 2 of a one-character string,
past its terminator: the cell holds the conversion of whatever byte `b` lies
there, not zero. -/
theorem loadDictionary_pads_with_storage_byte (b : CChar) :
    (loadDictionary { BitsPerLetter := 8, maxWordLen := 0 } (fun _ _ => b)
        (some [97, 32, 97, 98, 99])).2
      = some { Config := { Levels := [8, 8, 8] }, Count := 2,
               Store := [97, 97, 0, 98, charToUnsigned b, 99], Lengths := [8, 24] } := by
  rfl

/-- C2 (counterexample). With `BitsPerLetter = 8` and a configuration of two
levels of 5 bits, the length recorded for the word `ab` is 16, not `2 * 5`:
the recorded length is not the character count times the bits-per-level of
the configuration. -/
theorem recorded_length_not_from_config :
    ¬ (∀ (bm : DictionaryBenchmark) (beyond : Nat → Nat → CChar) (words : List CString)
        (config : Configuration) (m : Masks) (w bits : Nat),
        wordsToMasks bm beyond words config = some m →
        w < words.length →
        config.Levels ≠ [] →
        (∀ level, level ∈ config.Levels → level = bits) →
        m.Lengths[w]? = some ((words.getD w []).length * bits)) := by
  intro h
  have h1 := h { BitsPerLetter := 8, maxWordLen := 0 } (fun _ _ => 0) [[97, 98]]
    { Levels := [5, 5] } { Config := { Levels := [5, 5] }, Count := 1, Store := [97, 98], Lengths := [16] }
    0 5 (by decide) (by decide) (by decide) (by decide)
  revert h1
  decide

/-- C2 (amended). For every word list and every configuration whose sizes fit,
the length `wordsToMasks` records for word `w` is the character count of the word
times the member `BitsPerLetter`, reduced modulo `2 ^ 32`, whatever the levels
of the configuration are; it is the exact product when that is below
`2 ^ 32`. -/
theorem wordsToMasks_recorded_length (bm : DictionaryBenchmark) (beyond : Nat → Nat → CChar)
    (words : List CString) (config : Configuration)
    (hfit : words.length < 2 ^ 31 ∧ words.length * config.Depth < 2 ^ 31)
    (w : Nat) (hw : w < words.length) :
    ∃ m, wordsToMasks bm beyond words config = some m ∧
      m.Lengths[w]? = some (((words.getD w []).length * bm.BitsPerLetter) % 2 ^ 32) ∧
      ((words.getD w []).length * bm.BitsPerLetter < 2 ^ 32 →
        m.Lengths[w]? = some ((words.getD w []).length * bm.BitsPerLetter)) := by
  obtain ⟨m, hm, _, _, _, _, _, hlen⟩ := wordsToMasks_cells bm beyond words config hfit
  refine ⟨m, hm, hlen w hw, ?_⟩
  intro hlt
  rw [hlen w hw, Nat.mod_eq_of_lt hlt]

/-- Witness of C2 (amended): the word `ab` under `BitsPerLetter = 8` and a
configuration of two 5-bit levels. -/
theorem wordsToMasks_recorded_length_witness :
    ((1 : Nat) < 2 ^ 31 ∧ 1 * 2 < 2 ^ 31) ∧ (0 : Nat) < 1 ∧
    ∃ m, wordsToMasks { BitsPerLetter := 8, maxWordLen := 0 } (fun _ _ => 0) [[97, 98]]
          { Levels := [5, 5] } = some m ∧
      m.Lengths[0]? = some ((([[97, 98]] : List CString).getD 0 []).length * 8 % 2 ^ 32) ∧
      ((([[97, 98]] : List CString).getD 0 []).length * 8 < 2 ^ 32 →
        m.Lengths[0]? = some ((([[97, 98]] : List CString).getD 0 []).length * 8)) :=
  ⟨by decide, by decide,
    wordsToMasks_recorded_length { BitsPerLetter := 8, maxWordLen := 0 } (fun _ _ => 0)
      [[97, 98]] { Levels := [5, 5] } (by decide) 0 (by decide)⟩

/-- C3 (evaluation at the failing input). The dictionary file `a` gives depth 1
and `maxWordLen = 1`; the book file `ab` then gives a batch of depth 1 whose
recorded length is `2 * 8 = 16`, above `Depth * BitsPerLetter = 8`. -/
theorem loadBook_length_exceeds_depth :
    loadDictionary { BitsPerLetter := 8, maxWordLen := 0 } (fun _ _ => 0) (some [97])
      = ({ BitsPerLetter := 8, maxWordLen := 1 },
         some { Config := { Levels := [8] }, Count := 1, Store := [97], Lengths := [8] }) ∧
    ∃ m, loadBook { BitsPerLetter := 8, maxWordLen := 1 } (fun _ _ => 0) (some [97, 98])
          { Levels := [8] } = (true, some m) ∧
      m.Lengths[0]? = some 16 ∧ m.Depth * 8 = 8 ∧ ¬ (16 ≤ m.Depth * 8) := by
  refine ⟨by decide, _, rfl, ?_⟩
  decide

/-- C4 (evaluation at the failing input). At depth 2 and `BitsPerLetter = 8`
the word `abc` and its first two characters `ab` get the same mask row
`[97, 98]`, but the length recorded for `abc` is `3 * 8 = 24` while the length
recorded for `ab` is `2 * 8 = 16 = Depth * BitsPerLetter`. -/
theorem wordsToMasks_long_word_length :
    wordsToMasks { BitsPerLetter := 8, maxWordLen := 2 } (fun _ _ => 0) [[97, 98, 99]]
        { Levels := [8, 8] }
      = some { Config := { Levels := [8, 8] }, Count := 1, Store := [97, 98], Lengths := [24] } ∧
    wordsToMasks { BitsPerLetter := 8, maxWordLen := 2 } (fun _ _ => 0) [[97, 98]]
        { Levels := [8, 8] }
      = some { Config := { Levels := [8, 8] }, Count := 1, Store := [97, 98], Lengths := [16] } := by
  decide

/-- C5. For every word list and configuration whose sizes fit an `int`,
`wordsToMasks` returns a batch with `Count = words.length` and the depth of the
configuration, whose `Store` has exactly `Count * Depth` cells; the mask of
word `w` at level `l` is at flat index `l * Count + w`, that index is inside
the buffer, and distinct (level, word) pairs have distinct indices. -/
theorem wordsToMasks_layout (bm : DictionaryBenchmark) (beyond : Nat → Nat → CChar)
    (words : List CString) (config : Configuration)
    (hfit : words.length < 2 ^ 31 ∧ words.length * config.Depth < 2 ^ 31) :
    ∃ m, wordsToMasks bm beyond words config = some m ∧
      m.Count = words.length ∧ m.Depth = config.Depth ∧
      m.Store.length = m.Count * m.Depth ∧
      (∀ l w, l < m.Depth → w < m.Count →
        storeIndex m.Count l w < m.Store.length ∧
        m.Store[storeIndex m.Count l w]?
          = some (charToUnsigned (stringAt (beyond w) (words.getD w []) l))) ∧
      (∀ l1 w1 l2 w2, l1 < m.Depth → w1 < m.Count → l2 < m.Depth → w2 < m.Count →
        storeIndex m.Count l1 w1 = storeIndex m.Count l2 w2 → l1 = l2 ∧ w1 = w2) := by
  obtain ⟨m, hm, hcfg, hcount, hstore, _, hcell, _⟩ :=
    wordsToMasks_cells bm beyond words config hfit
  have hdepth : m.Depth = config.Depth := by rw [Masks.Depth, hcfg]
  refine ⟨m, hm, hcount, hdepth, by rw [hstore, hcount, hdepth], ?_, ?_⟩
  · intro l w hl hw
    rw [hdepth] at hl
    rw [hcount] at hw
    refine ⟨?_, ?_⟩
    · rw [hstore, storeIndex, hcount]
      exact storeIndex_lt hl hw
    · rw [storeIndex, hcount]
      exact hcell w hw l hl
  · intro l1 w1 l2 w2 _ hw1 _ hw2 he
    exact storeIndex_inj hw1 hw2 he

/-- Witness of C5: the words `a` and `abc` at depth 3. -/
theorem wordsToMasks_layout_witness :
    ((2 : Nat) < 2 ^ 31 ∧ 2 * 3 < 2 ^ 31) ∧
    ∃ m, wordsToMasks { BitsPerLetter := 8, maxWordLen := 3 } (fun _ _ => 0)
          [[97], [97, 98, 99]] { Levels := [8, 8, 8] } = some m ∧
      m.Count = 2 ∧ m.Depth = 3 ∧
      m.Store.length = m.Count * m.Depth ∧
      (∀ l w, l < m.Depth → w < m.Count →
        storeIndex m.Count l w < m.Store.length ∧
        m.Store[storeIndex m.Count l w]?
          = some (charToUnsigned (stringAt ((fun _ _ => 0) w)
              (([[97], [97, 98, 99]] : List CString).getD w []) l))) ∧
      (∀ l1 w1 l2 w2, l1 < m.Depth → w1 < m.Count → l2 < m.Depth → w2 < m.Count →
        storeIndex m.Count l1 w1 = storeIndex m.Count l2 w2 → l1 = l2 ∧ w1 = w2) :=
  ⟨by decide,
    wordsToMasks_layout { BitsPerLetter := 8, maxWordLen := 3 } (fun _ _ => 0)
      [[97], [97, 98, 99]] { Levels := [8, 8, 8] } (by decide)⟩

/-- C6. When every word read is shorter than `2 ^ 32` characters and the sizes
fit an `int`, `loadDictionary` returns a batch whose configuration has exactly
`maxWordLen` levels, each equal to `BitsPerLetter`, where `maxWordLen`, also
left in the member of that name, is the greatest character count among the
words `readWords` returned (zero when there are none); no dictionary word is
longer than the depth of the configuration. -/
theorem loadDictionary_config (bm : DictionaryBenchmark) (beyond : Nat → Nat → CChar)
    (file : Option CString)
    (hlen : ∀ w, w ∈ (readWords file).1 → w.length < 2 ^ 32)
    (hfit : (readWords file).1.length < 2 ^ 31 ∧
      (readWords file).1.length * (readWords file).2 < 2 ^ 31) :
    ∃ m, (loadDictionary bm beyond file).2 = some m ∧
      (loadDictionary bm beyond file).1.maxWordLen = (readWords file).2 ∧
      m.Config = prepareConfig bm.BitsPerLetter (readWords file).2 ∧
      m.Config.Levels.length = (readWords file).2 ∧
      (∀ level, level ∈ m.Config.Levels → level = bm.BitsPerLetter) ∧
      (∀ w, w ∈ (readWords file).1 → w.length ≤ (readWords file).2) ∧
      ((readWords file).1 ≠ [] →
        ∃ w, w ∈ (readWords file).1 ∧ w.length = (readWords file).2) ∧
      ((readWords file).1 = [] → (readWords file).2 = 0) ∧
      (∀ w, w ∈ (readWords file).1 → w.length ≤ m.Depth) := by
  have hfit2 : (readWords file).1.length < 2 ^ 31 ∧
      (readWords file).1.length * (prepareConfig bm.BitsPerLetter (readWords file).2).Depth
        < 2 ^ 31 := by
    rw [prepareConfig_depth]
    exact hfit
  obtain ⟨m, hm, hcfg, _⟩ := wordsToMasks_cells
    { BitsPerLetter := bm.BitsPerLetter, maxWordLen := (readWords file).2 } beyond
    (readWords file).1 (prepareConfig bm.BitsPerLetter (readWords file).2) hfit2
  obtain ⟨hle, hatt, hzero⟩ := readWords_maxWordLen file hlen
  have hdepth : m.Depth = (readWords file).2 := by
    rw [Masks.Depth, hcfg, prepareConfig_depth]
  refine ⟨m, hm, rfl, hcfg, ?_, ?_, hle, hatt, hzero, ?_⟩
  · rw [hcfg]
    exact prepareConfig_depth _ _
  · rw [hcfg]
    exact prepareConfig_levels _ _
  · intro w hw
    rw [hdepth]
    exact hle w hw

/-- Witness of C6: the dictionary file `A. abc`. -/
theorem loadDictionary_config_witness :
    ((∀ w, w ∈ (readWords (some [65, 46, 32, 97, 98, 99])).1 → w.length < 2 ^ 32) ∧
      ((readWords (some [65, 46, 32, 97, 98, 99])).1.length < 2 ^ 31 ∧
        (readWords (some [65, 46, 32, 97, 98, 99])).1.length
          * (readWords (some [65, 46, 32, 97, 98, 99])).2 < 2 ^ 31)) ∧
    ∃ m, (loadDictionary { BitsPerLetter := 8, maxWordLen := 0 } (fun _ _ => 0)
          (some [65, 46, 32, 97, 98, 99])).2 = some m ∧
      (loadDictionary { BitsPerLetter := 8, maxWordLen := 0 } (fun _ _ => 0)
          (some [65, 46, 32, 97, 98, 99])).1.maxWordLen
        = (readWords (some [65, 46, 32, 97, 98, 99])).2 ∧
      m.Config = prepareConfig 8 (readWords (some [65, 46, 32, 97, 98, 99])).2 ∧
      m.Config.Levels.length = (readWords (some [65, 46, 32, 97, 98, 99])).2 ∧
      (∀ level, level ∈ m.Config.Levels → level = 8) ∧
      (∀ w, w ∈ (readWords (some [65, 46, 32, 97, 98, 99])).1 →
        w.length ≤ (readWords (some [65, 46, 32, 97, 98, 99])).2) ∧
      ((readWords (some [65, 46, 32, 97, 98, 99])).1 ≠ [] →
        ∃ w, w ∈ (readWords (some [65, 46, 32, 97, 98, 99])).1 ∧
          w.length = (readWords (some [65, 46, 32, 97, 98, 99])).2) ∧
      ((readWords (some [65, 46, 32, 97, 98, 99])).1 = [] →
        (readWords (some [65, 46, 32, 97, 98, 99])).2 = 0) ∧
      (∀ w, w ∈ (readWords (some [65, 46, 32, 97, 98, 99])).1 → w.length ≤ m.Depth) :=
  ⟨⟨by decide, by decide⟩,
    loadDictionary_config { BitsPerLetter := 8, maxWordLen := 0 } (fun _ _ => 0)
      (some [65, 46, 32, 97, 98, 99]) (by decide) (by decide)⟩

/-- C7. For every book file and the dictionary configuration that
`loadDictionary` built (the object being the one `loadDictionary` left): when
some book word has more characters than the depth of that configuration,
`loadBook` gives the warning and still returns a batch with that
configuration that holds every book word, its masks at every level and its
recorded length. Book words are shorter than `2 ^ 32` characters and the
sizes of the book batch fit an `int`. -/
theorem loadBook_warns_beyond_dictionary_depth (bm : DictionaryBenchmark)
    (beyond1 beyond2 : Nat → Nat → CChar) (dictionaryFile bookFile : Option CString)
    (dict : Masks)
    (hdict : (loadDictionary bm beyond1 dictionaryFile).2 = some dict)
    (hlen : ∀ w, w ∈ (readWords bookFile).1 → w.length < 2 ^ 32)
    (hfit : (readWords bookFile).1.length < 2 ^ 31 ∧
      (readWords bookFile).1.length * dict.Config.Depth < 2 ^ 31)
    (hlong : ∃ w, w ∈ (readWords bookFile).1 ∧ dict.Config.Depth < w.length) :
    (loadBook (loadDictionary bm beyond1 dictionaryFile).1 beyond2 bookFile dict.Config).1
      = true ∧
    ∃ m, (loadBook (loadDictionary bm beyond1 dictionaryFile).1 beyond2 bookFile
          dict.Config).2 = some m ∧
      m.Config = dict.Config ∧
      m.Count = (readWords bookFile).1.length ∧
      m.Store.length = m.Count * m.Depth ∧
      m.Lengths.length = m.Count ∧
      (∀ w, w < m.Count → ∀ level, level < m.Depth →
        m.Store[storeIndex m.Count level w]?
          = some (charToUnsigned
              (stringAt (beyond2 w) ((readWords bookFile).1.getD w []) level))) ∧
      (∀ w, w < m.Count →
        m.Lengths[w]?
          = some ((((readWords bookFile).1.getD w []).length * bm.BitsPerLetter) % 2 ^ 32)) := by
  -- the configuration of the dictionary batch has depth `maxWordLen`
  have hd : wordsToMasks
      { BitsPerLetter := bm.BitsPerLetter, maxWordLen := (readWords dictionaryFile).2 } beyond1
      (readWords dictionaryFile).1
      (prepareConfig bm.BitsPerLetter (readWords dictionaryFile).2) = some dict := hdict
  obtain ⟨d, hd1, hdcfg, _⟩ := wordsToMasks_cells _ beyond1 _ _ (wordsToMasks_fits _ _ _ _ _ hd)
  have hde : d = dict := Option.some.inj (hd1.symm.trans hd)
  subst hde
  have hdepth : d.Config.Depth = (readWords dictionaryFile).2 := by
    rw [hdcfg, prepareConfig_depth]
  -- the warning
  obtain ⟨hle, _, _⟩ := readWords_maxWordLen bookFile hlen
  obtain ⟨w, hw, hwl⟩ := hlong
  have hbound := hle w hw
  have hflag : (loadBook (loadDictionary bm beyond1 dictionaryFile).1 beyond2 bookFile
      d.Config).1 = true := by
    have hgt : (readWords dictionaryFile).2 < (readWords bookFile).2 := by omega
    simp only [loadBook, loadDictionary]
    exact decide_eq_true hgt
  -- the batch
  obtain ⟨m, hm, hcfg, hcount, hstore, hlens, hcell, hrec⟩ := wordsToMasks_cells
    { BitsPerLetter := bm.BitsPerLetter, maxWordLen := (readWords dictionaryFile).2 } beyond2
    (readWords bookFile).1 d.Config hfit
  have hmdepth : m.Depth = d.Config.Depth := by rw [Masks.Depth, hcfg]
  refine ⟨hflag, m, hm, hcfg, hcount, ?_, ?_, ?_, ?_⟩
  · rw [hstore, hcount, hmdepth]
  · rw [hlens, hcount]
  · intro w1 hw1 level hlevel
    rw [hcount] at hw1
    rw [hmdepth] at hlevel
    rw [storeIndex, hcount]
    exact hcell w1 hw1 level hlevel
  · intro w1 hw1
    rw [hcount] at hw1
    exact hrec w1 hw1

/-- Witness of C7: the dictionary file `ab` (depth 2) and the book file
`abc de`. -/
theorem loadBook_warns_beyond_dictionary_depth_witness :
    ((loadDictionary { BitsPerLetter := 8, maxWordLen := 0 } (fun _ _ => 0)
        (some [97, 98])).2
      = some { Config := { Levels := [8, 8] }, Count := 1, Store := [97, 98],
               Lengths := [16] } ∧
      (∀ w, w ∈ (readWords (some [97, 98, 99, 32, 100, 101])).1 → w.length < 2 ^ 32) ∧
      ((readWords (some [97, 98, 99, 32, 100, 101])).1.length < 2 ^ 31 ∧
        (readWords (some [97, 98, 99, 32, 100, 101])).1.length
          * (Configuration.mk [8, 8]).Depth < 2 ^ 31) ∧
      (∃ w, w ∈ (readWords (some [97, 98, 99, 32, 100, 101])).1 ∧
        (Configuration.mk [8, 8]).Depth < w.length)) ∧
    ((loadBook (loadDictionary { BitsPerLetter := 8, maxWordLen := 0 } (fun _ _ => 0)
          (some [97, 98])).1 (fun _ _ => 0) (some [97, 98, 99, 32, 100, 101])
        { Levels := [8, 8] }).1 = true ∧
    ∃ m, (loadBook (loadDictionary { BitsPerLetter := 8, maxWordLen := 0 } (fun _ _ => 0)
          (some [97, 98])).1 (fun _ _ => 0) (some [97, 98, 99, 32, 100, 101])
        { Levels := [8, 8] }).2 = some m ∧
      m.Config = { Levels := [8, 8] } ∧
      m.Count = (readWords (some [97, 98, 99, 32, 100, 101])).1.length ∧
      m.Store.length = m.Count * m.Depth ∧
      m.Lengths.length = m.Count ∧
      (∀ w, w < m.Count → ∀ level, level < m.Depth →
        m.Store[storeIndex m.Count level w]?
          = some (charToUnsigned
              (stringAt ((fun _ _ => 0) w)
                ((readWords (some [97, 98, 99, 32, 100, 101])).1.getD w []) level))) ∧
      (∀ w, w < m.Count →
        m.Lengths[w]?
          = some ((((readWords (some [97, 98, 99, 32, 100, 101])).1.getD w []).length * 8)
              % 2 ^ 32))) :=
  ⟨⟨by decide, by decide, by decide, ⟨[97, 98, 99], by decide, by decide⟩⟩,
    loadBook_warns_beyond_dictionary_depth { BitsPerLetter := 8, maxWordLen := 0 }
      (fun _ _ => 0) (fun _ _ => 0) (some [97, 98]) (some [97, 98, 99, 32, 100, 101])
      { Config := { Levels := [8, 8] }, Count := 1, Store := [97, 98], Lengths := [16] }
      (by decide) (by decide) (by decide) ⟨[97, 98, 99], by decide, by decide⟩⟩

/-- C8. For a file that cannot be read, `readWords` returns no word and
`maxWordLen = 0`; `loadDictionary` then returns the empty batch of depth 0, and
`loadBook` returns, without warning, the empty batch with the configuration
passed in. -/
theorem unreadable_file_gives_empty_batch :
    readWords none = ([], 0) ∧
    (∀ (bm : DictionaryBenchmark) (beyond : Nat → Nat → CChar),
      ∃ m, loadDictionary bm beyond none
          = ({ BitsPerLetter := bm.BitsPerLetter, maxWordLen := 0 }, some m) ∧
        m.Count = 0 ∧ m.Depth = 0 ∧ m.Store = [] ∧ m.Lengths = []) ∧
    (∀ (bm : DictionaryBenchmark) (beyond : Nat → Nat → CChar) (config : Configuration),
      ∃ m, loadBook bm beyond none config = (false, some m) ∧
        m.Count = 0 ∧ m.Config = config ∧ m.Store = [] ∧ m.Lengths = []) := by
  refine ⟨rfl, ?_, ?_⟩
  · intro bm beyond
    exact ⟨{ Config := { Levels := [] }, Count := 0, Store := [], Lengths := [] },
      rfl, rfl, rfl, rfl, rfl⟩
  · intro bm beyond config
    refine ⟨{ Config := config, Count := 0, Store := [], Lengths := [] }, ?_, rfl, rfl, rfl, rfl⟩
    simp [loadBook, readWords, wordsToMasks, fillLoop]

/-- C9. For every sequence of tokens the stream yields, the reading loop returns
one word per token, in token order, each the token lowercased with the
punctuation characters removed, a token left empty included; `readWords` on a
readable file is that loop on the tokens of the file. -/
theorem readWords_one_word_per_token :
    (∀ tokens : List CString,
      (readLoop tokens ([], 0)).1
        = tokens.map (fun token => (token.map tolower).filter (fun c => !ispunct c)) ∧
      (readLoop tokens ([], 0)).1.length = tokens.length) ∧
    (∀ content : CString,
      (readWords (some content)).1
        = (extractTokens [] content).map
            (fun token => (token.map tolower).filter (fun c => !ispunct c))) := by
  have hloop : ∀ tokens : List CString,
      (readLoop tokens ([], 0)).1
        = tokens.map (fun token => (token.map tolower).filter (fun c => !ispunct c)) := by
    intro tokens
    rw [readLoop_words]
    simp [removeCopyIf_eq]
  refine ⟨fun tokens => ⟨hloop tokens, ?_⟩, fun content => hloop _⟩
  rw [hloop]
  simp

/-- C10 (counterexample). With `BitsPerLetter = 2 ^ 31` and depth 2, the empty
word and the word of two zero characters both fit, get the same mask row
`[0, 0]` (the stray byte behind the empty word being zero) and the same
recorded length `0`, since `2 * 2 ^ 31` wraps to zero in the 32-bit cell, yet
they are different words. -/
theorem wordsToMasks_collision_on_wrapped_length :
    ¬ (∀ (bm : DictionaryBenchmark) (beyond1 beyond2 : Nat → Nat → CChar)
        (words1 words2 : List CString) (config : Configuration) (m1 m2 : Masks)
        (i j : Nat) (u v : CString),
        1 ≤ bm.BitsPerLetter →
        wordsToMasks bm beyond1 words1 config = some m1 →
        wordsToMasks bm beyond2 words2 config = some m2 →
        words1[i]? = some u → words2[j]? = some v →
        u.length ≤ config.Depth → v.length ≤ config.Depth →
        (∀ level, level < config.Depth →
          m1.Store[storeIndex m1.Count level i]? = m2.Store[storeIndex m2.Count level j]?) →
        m1.Lengths[i]? = m2.Lengths[j]? →
        u = v) := by
  intro h
  have h1 := h { BitsPerLetter := 2 ^ 31, maxWordLen := 2 } (fun _ _ => 0) (fun _ _ => 0)
    [[]] [[0, 0]] { Levels := [2 ^ 31, 2 ^ 31] }
    { Config := { Levels := [2 ^ 31, 2 ^ 31] }, Count := 1, Store := [0, 0], Lengths := [0] }
    { Config := { Levels := [2 ^ 31, 2 ^ 31] }, Count := 1, Store := [0, 0], Lengths := [0] }
    0 0 [] [0, 0]
    (by decide) (by decide) (by decide) (by decide) (by decide) (by decide) (by decide)
    (by decide) (by decide)
  exact absurd h1 (by decide)

/-- C10 (amended). Under a configuration whose total bit length
`Depth * BitsPerLetter` is below `2 ^ 32`, with `BitsPerLetter ≥ 1`: two words
of at most `Depth` characters, in the same batch or in two batches built with
that configuration, that get the same mask at every level and the same
recorded length are the same word. -/
theorem wordsToMasks_injective (bm : DictionaryBenchmark) (beyond1 beyond2 : Nat → Nat → CChar)
    (words1 words2 : List CString) (config : Configuration) (m1 m2 : Masks)
    (i j : Nat) (u v : CString)
    (hbits : 1 ≤ bm.BitsPerLetter)
    (htotal : config.Depth * bm.BitsPerLetter < 2 ^ 32)
    (h1 : wordsToMasks bm beyond1 words1 config = some m1)
    (h2 : wordsToMasks bm beyond2 words2 config = some m2)
    (hu : words1[i]? = some u) (hv : words2[j]? = some v)
    (hulen : u.length ≤ config.Depth) (hvlen : v.length ≤ config.Depth)
    (hrow : ∀ level, level < config.Depth →
      m1.Store[storeIndex m1.Count level i]? = m2.Store[storeIndex m2.Count level j]?)
    (hlength : m1.Lengths[i]? = m2.Lengths[j]?) :
    u = v := by
  obtain ⟨n1, hn1, _, hc1, _, _, hcell1, hlen1⟩ :=
    wordsToMasks_cells bm beyond1 words1 config (wordsToMasks_fits _ _ _ _ _ h1)
  obtain ⟨n2, hn2, _, hc2, _, _, hcell2, hlen2⟩ :=
    wordsToMasks_cells bm beyond2 words2 config (wordsToMasks_fits _ _ _ _ _ h2)
  have e1 : n1 = m1 := Option.some.inj (hn1.symm.trans h1)
  have e2 : n2 = m2 := Option.some.inj (hn2.symm.trans h2)
  subst e1
  subst e2
  have hi : i < words1.length := (List.getElem?_eq_some_iff.mp hu).1
  have hj : j < words2.length := (List.getElem?_eq_some_iff.mp hv).1
  have gu : words1.getD i [] = u := getD_of_getElem? words1 i u hu
  have gv : words2.getD j [] = v := getD_of_getElem? words2 j v hv
  -- the recorded lengths give the character counts
  have hL := hlength
  rw [hlen1 i hi, hlen2 j hj, gu, gv] at hL
  have hmu : u.length * bm.BitsPerLetter ≤ config.Depth * bm.BitsPerLetter :=
    Nat.mul_le_mul_right _ hulen
  have hmv : v.length * bm.BitsPerLetter ≤ config.Depth * bm.BitsPerLetter :=
    Nat.mul_le_mul_right _ hvlen
  have hprod : u.length * bm.BitsPerLetter = v.length * bm.BitsPerLetter := by
    have := Option.some.inj hL
    rwa [Nat.mod_eq_of_lt (by omega), Nat.mod_eq_of_lt (by omega)] at this
  have hsame : u.length = v.length := Nat.eq_of_mul_eq_mul_right (by omega) hprod
  -- the masks give the characters
  apply List.ext_getElem hsame
  intro level hlu hlv
  have hld : level < config.Depth := by omega
  have hR := hrow level hld
  rw [storeIndex, storeIndex, hc1, hc2, hcell1 i hi level hld, hcell2 j hj level hld, gu, gv,
    stringAt_of_lt _ u level hlu, stringAt_of_lt _ v level hlv] at hR
  have := charToUnsigned_injective (Option.some.inj hR)
  simpa using this

/-- Witness of C10 (amended): the word `ab` as word 0 of one batch and word 1 of another,
at depth 2 and `BitsPerLetter = 8`. -/
theorem wordsToMasks_injective_witness :
    ((1 : Nat) ≤ 8 ∧ (Configuration.mk [8, 8]).Depth * 8 < 2 ^ 32 ∧
      wordsToMasks { BitsPerLetter := 8, maxWordLen := 2 } (fun _ _ => 0) [[97, 98]]
          { Levels := [8, 8] }
        = some { Config := { Levels := [8, 8] }, Count := 1, Store := [97, 98],
                 Lengths := [16] } ∧
      wordsToMasks { BitsPerLetter := 8, maxWordLen := 2 } (fun _ _ => 7) [[99], [97, 98]]
          { Levels := [8, 8] }
        = some { Config := { Levels := [8, 8] }, Count := 2, Store := [99, 97, 0, 98],
                 Lengths := [8, 16] } ∧
      ([[97, 98]] : List CString)[0]? = some [97, 98] ∧
      ([[99], [97, 98]] : List CString)[1]? = some [97, 98] ∧
      (∀ level, level < 2 →
        ([97, 98] : List Nat)[storeIndex 1 level 0]?
          = ([99, 97, 0, 98] : List Nat)[storeIndex 2 level 1]?) ∧
      ([16] : List Nat)[0]? = ([8, 16] : List Nat)[1]?) ∧
    ([97, 98] : CString) = [97, 98] :=
  ⟨by decide,
    wordsToMasks_injective { BitsPerLetter := 8, maxWordLen := 2 } (fun _ _ => 0) (fun _ _ => 7)
      [[97, 98]] [[99], [97, 98]] { Levels := [8, 8] }
      { Config := { Levels := [8, 8] }, Count := 1, Store := [97, 98], Lengths := [16] }
      { Config := { Levels := [8, 8] }, Count := 2, Store := [99, 97, 0, 98], Lengths := [8, 16] }
      0 1 [97, 98] [97, 98]
      (by decide) (by decide) (by decide) (by decide) (by decide) (by decide)
      (by decide) (by decide) (by decide) (by decide)⟩

/-! ## Further properties of the batch -/

/-- Row that `wordsToMasks` writes for word `w`: at a level below the length of
the word the converted character, at the level equal to the length zero (the
terminator), and at a level past it the converted byte found behind the
string. -/
theorem wordsToMasks_row (bm : DictionaryBenchmark) (beyond : Nat → Nat → CChar)
    (words : List CString) (config : Configuration)
    (hfit : words.length < 2 ^ 31 ∧ words.length * config.Depth < 2 ^ 31)
    (w : Nat) (word : CString) (hword : words[w]? = some word)
    (level : Nat) (hlevel : level < config.Depth) :
    ∃ m, wordsToMasks bm beyond words config = some m ∧
      (∀ h : level < word.length,
        m.Store[storeIndex m.Count level w]? = some (charToUnsigned (word.get ⟨level, h⟩))) ∧
      (level = word.length → m.Store[storeIndex m.Count level w]? = some 0) ∧
      (word.length < level →
        m.Store[storeIndex m.Count level w]? = some (charToUnsigned (beyond w level))) := by
  obtain ⟨m, hm, _, hcount, _, _, hcell, _⟩ := wordsToMasks_cells bm beyond words config hfit
  have hw : w < words.length := (List.getElem?_eq_some_iff.mp hword).1
  have hc := hcell w hw level hlevel
  rw [getD_of_getElem? words w word hword] at hc
  refine ⟨m, hm, ?_, ?_, ?_⟩
  · intro h
    rw [storeIndex, hcount, hc, stringAt_of_lt _ _ _ h]
  · intro h
    rw [storeIndex, hcount, hc, h, stringAt_terminator, charToUnsigned_zero]
  · intro h
    rw [storeIndex, hcount, hc, stringAt_past _ _ _ h]

/-- Row of a word longer than the depth: at every level it equals the row of the
first `Depth` characters of the word. -/
theorem stringAt_take (beyond1 beyond2 : Nat → CChar) (word : CString) (depth level : Nat)
    (hlong : depth ≤ word.length) (hlevel : level < depth) :
    stringAt beyond1 word level = stringAt beyond2 (word.take depth) level := by
  have h1 : level < word.length := by omega
  have h2 : level < (word.take depth).length := by
    rw [List.length_take]
    omega
  rw [stringAt_of_lt _ _ _ h1, stringAt_of_lt _ _ _ h2]
  simp

/-- Recorded lengths of the batch `loadDictionary` builds: each is at most
`Depth * BitsPerLetter`. -/
theorem loadDictionary_lengths_le (bm : DictionaryBenchmark) (beyond : Nat → Nat → CChar)
    (file : Option CString)
    (hlen : ∀ w, w ∈ (readWords file).1 → w.length < 2 ^ 32)
    (hfit : (readWords file).1.length < 2 ^ 31 ∧
      (readWords file).1.length * (readWords file).2 < 2 ^ 31) :
    ∃ m, (loadDictionary bm beyond file).2 = some m ∧
      ∀ (i len : Nat), m.Lengths[i]? = some len → len ≤ m.Depth * bm.BitsPerLetter := by
  have hfit2 : (readWords file).1.length < 2 ^ 31 ∧
      (readWords file).1.length * (prepareConfig bm.BitsPerLetter (readWords file).2).Depth
        < 2 ^ 31 := by
    rw [prepareConfig_depth]
    exact hfit
  obtain ⟨m, hm, hcfg, _, _, hll, _, hlens⟩ := wordsToMasks_cells
    { BitsPerLetter := bm.BitsPerLetter, maxWordLen := (readWords file).2 } beyond
    (readWords file).1 (prepareConfig bm.BitsPerLetter (readWords file).2) hfit2
  obtain ⟨hle, _, _⟩ := readWords_maxWordLen file hlen
  have hdepth : m.Depth = (readWords file).2 := by
    rw [Masks.Depth, hcfg, prepareConfig_depth]
  refine ⟨m, hm, ?_⟩
  intro i len hi
  have hib : i < (readWords file).1.length := by
    rw [← hll]
    exact (List.getElem?_eq_some_iff.mp hi).1
  have hrec := hlens i hib
  rw [hi] at hrec
  have hlen_eq := Option.some.inj hrec
  have hmem : (readWords file).1.getD i [] ∈ (readWords file).1 := by
    rw [List.getD_eq_getElem?_getD, List.getElem?_eq_getElem hib]
    exact List.getElem_mem _
  have hword := hle _ hmem
  have hmul : ((readWords file).1.getD i []).length * bm.BitsPerLetter
      ≤ (readWords file).2 * bm.BitsPerLetter := Nat.mul_le_mul_right _ hword
  have hmod : ((readWords file).1.getD i []).length * bm.BitsPerLetter % 2 ^ 32
      ≤ ((readWords file).1.getD i []).length * bm.BitsPerLetter := Nat.mod_le _ _
  rw [hdepth, hlen_eq]
  exact Nat.le_trans hmod hmul

end FlavorsBenchmarks
